import Mathlib

/-!
Verification development for the fcrand package (src/fcrand.go): a caching
wrapper around a secure random-byte source.  The Go code is shallowly
embedded below.  Bytes are naturals below 256; Go machine integers are
modelled as Int wherever the Go code subtracts, so that a negative value
would be visible rather than truncated.  The secure source (crypto/rand)
is modelled as an oracle: an infinite stream of bytes together with a
cursor, a per-call failure flag, and a log of the request sizes of the
calls made so far.
-/

namespace Fcrand

/-- Constants from src/fcrand.go lines 24-33. -/
def lbBlockByteSize : Nat := 8

/-- 512 blocks in the large buffer. -/
def lbBlockCount : Nat := 1 <<< 9

/-- 4096 bytes per large buffer. -/
def lbByteSize : Nat := lbBlockByteSize * lbBlockCount

/-- 1024 bytes per small buffer. -/
def sbByteSize : Nat := 1 <<< 10

/-- Requests above this many bytes bypass the cache. -/
def maxBytesToFillViaCache : Nat := 512

/-- Requests below this many bytes use the small buffer. -/
def sbCutoff : Nat := 32

/-- The secure random source (crypto/rand), modelled as an oracle.
`stream i` is the i-th byte the source will ever produce, `pos` the
cursor into that stream, `fails k` says whether the k-th call made to
the source reports an error, and `calls` logs the sizes of the calls
made so far. -/
structure Src where
  stream : Nat → Nat
  pos : Nat
  fails : Nat → Bool
  calls : List Nat

/-- Result of one call into the secure source. -/
structure SrcR where
  out : List Nat
  err : Bool
  s : Src

/-- One call `cryptoRand.Read` filling a buffer of length `k`: returns the
next `k` bytes of the stream (a byte is a value below 256), the failure
flag for this call, and the advanced source. -/
def srcRead (k : Nat) (s : Src) : SrcR :=
  { out := (List.range k).map fun i => s.stream (s.pos + i) % 256
    err := s.fails s.calls.length
    s := { s with pos := s.pos + k, calls := s.calls ++ [k] } }

/-- The cache structure from src/fcrand.go lines 158-163. -/
structure Cache where
  lb : List Nat
  sb : List Nat
  lbCount : Int
  sbCount : Int

/-- A freshly constructed cache (the pool New function, lines 167-172):
zero-filled buffers, zero counters. -/
def newCache : Cache :=
  { lb := List.replicate lbByteSize 0
    sb := List.replicate sbByteSize 0
    lbCount := 0
    sbCount := 0 }

/-- Global state: the pool of caches plus the secure source.  The pool is
modelled as a LIFO list (single-threaded determinisation of sync.Pool). -/
structure World where
  pool : List Cache
  src : Src

/-- cachePool.Get: pop a cache, or construct a new one when empty. -/
def poolGet (w : World) : Cache × World :=
  match w.pool with
  | [] => (newCache, w)
  | c :: rest => (c, { w with pool := rest })

/-- cachePool.Put. -/
def poolPut (c : Cache) (w : World) : World :=
  { w with pool := c :: w.pool }

/-- Observable cache events: refills of either buffer, and a served range
(start index into the buffer, number of bytes copied out). -/
inductive Ev where
  | fillSb : Ev
  | fillLb : Ev
  | sb (start len : Nat) : Ev
  | lb (start len : Nat) : Ev
deriving DecidableEq, Repr

/-- Result of the per-cache part of Read: bytes written to the caller,
events, updated cache, updated source. -/
structure StepR where
  out : List Nat
  evs : List Ev
  c : Cache
  s : Src

/-- lbBytesConsumed from line 117: `(n + lbBlockByteSize - 1) &^ (lbBlockByteSize - 1)`.
On a 64-bit Go int with a nonnegative value, AND-NOT with 7 is AND with
the two complement bit pattern of ^7, which is 2^64 - 8. -/
def lbBytesConsumed (n : Nat) : Nat :=
  (n + lbBlockByteSize - 1) &&& (2 ^ 64 - lbBlockByteSize)

/-- Lines 106-107 on the (possibly refilled) cache: copy `bLen` bytes out
of the tail of the small buffer and consume exactly `bLen` bytes. -/
def sbServe (bLen : Nat) (c2 : Cache) (s2 : Src) (evFill : List Ev) : StepR :=
  let start := ((sbByteSize : Int) - c2.sbCount).toNat
  let out := (c2.sb.drop start).take bLen
  { out := out
    evs := evFill ++ [Ev.sb start out.length]
    c := { c2 with sbCount := c2.sbCount - (bLen : Int) }
    s := s2 }

/-- Small-buffer path of Read, src/fcrand.go lines 101-107: refill the
whole small buffer when fewer than `bLen` bytes remain (the error result
of the refill call is discarded, as in the code), then serve. -/
def sbStep (bLen : Nat) (c : Cache) (s : Src) : StepR :=
  if (bLen : Int) > c.sbCount then
    let r := srcRead sbByteSize s
    sbServe bLen { c with sb := r.out, sbCount := (sbByteSize : Int) } r.s [Ev.fillSb]
  else
    sbServe bLen c s []

/-- Lines 113-118 on the (possibly refilled) cache: copy `bLen` bytes out
of the tail of the large buffer and consume a block-rounded amount. -/
def lbServe (bLen : Nat) (c2 : Cache) (s2 : Src) (evFill : List Ev) : StepR :=
  let start := ((lbByteSize : Int) - c2.lbCount).toNat
  let out := (c2.lb.drop start).take bLen
  { out := out
    evs := evFill ++ [Ev.lb start out.length]
    c := { c2 with lbCount := c2.lbCount - (lbBytesConsumed bLen : Int) }
    s := s2 }

/-- Large-buffer path of Read, src/fcrand.go lines 108-118: refill the
whole large buffer when fewer than `bLen` bytes remain (the refill error
is discarded, as in the code), then serve. -/
def lbStep (bLen : Nat) (c : Cache) (s : Src) : StepR :=
  if (bLen : Int) > c.lbCount then
    let r := srcRead lbByteSize s
    lbServe bLen { c with lb := r.out, lbCount := (lbByteSize : Int) } r.s [Ev.fillLb]
  else
    lbServe bLen c s []

/-- Result of Read: the returned (n, err) pair, the bytes written into the
caller buffer, the cache events, and the final state. -/
structure RRes where
  n : Nat
  err : Bool
  out : List Nat
  evs : List Ev
  w : World

/-- Read, src/fcrand.go lines 88-123.  `bLen` is len(b). -/
def Read (bLen : Nat) (w : World) : RRes :=
  if bLen = 0 then
    { n := 0, err := false, out := [], evs := [], w := w }
  else if bLen > maxBytesToFillViaCache then
    let r := srcRead bLen w.src
    { n := bLen, err := r.err, out := r.out, evs := [], w := { w with src := r.s } }
  else
    let c := (poolGet w).1
    let w1 := (poolGet w).2
    if bLen < sbCutoff then
      let r := sbStep bLen c w1.src
      { n := bLen, err := false, out := r.out, evs := r.evs
        w := poolPut r.c { w1 with src := r.s } }
    else
      let r := lbStep bLen c w1.src
      { n := bLen, err := false, out := r.out, evs := r.evs
        w := poolPut r.c { w1 with src := r.s } }

/-- The reader method, src/fcrand.go lines 82-84: it delegates to Read. -/
def reader_Read (bLen : Nat) (w : World) : RRes :=
  Read bLen w

/-- The RFC 4648 base32 alphabet from line 144. -/
def base32 : List Char :=
  "ABCDEFGHIJKLMNOPQRSTUVWXYZ234567".data

/-- base32 repeated 8 times to cover all byte values, line 146. -/
def base32_256 : List Char :=
  base32 ++ base32 ++ base32 ++ base32 ++ base32 ++ base32 ++ base32 ++ base32

/-- Length of the string returned by Text, line 147. -/
def textLength : Nat := 26

/-- Text, src/fcrand.go lines 142-156.  The 26-byte scratch buffer starts
zero-filled (Go make), Read overwrites the bytes it serves, and each byte
is then mapped through the 256-entry table.  Go indexing would panic out
of range; getD is total, but every byte the model produces is below 256. -/
def Text (w : World) : List Char × World :=
  let r := reader_Read textLength w
  let src1 := r.out ++ (List.replicate textLength (0 : Nat)).drop r.out.length
  (src1.map fun b => base32_256.getD b 'A', r.w)

/-- Run a sequence of Read calls (request sizes) against a world. -/
def run : List Nat → World → World
  | [], w => w
  | n :: ns, w => run ns (Read n w).w

/-- The concatenated event trace of a sequence of Read calls. -/
def runEvs : List Nat → World → List Ev
  | [], _ => []
  | n :: ns, w => (Read n w).evs ++ runEvs ns (Read n w).w

/-- The initial world: empty pool, a given source oracle. -/
def initW (s : Src) : World :=
  { pool := [], src := s }

/-- Large-buffer served ranges, tagged with a refill epoch: `e` counts the
fillLb events seen so far. -/
def lbRangesFrom (e : Nat) : List Ev → List (Nat × Nat × Nat)
  | [] => []
  | Ev.fillLb :: evs => lbRangesFrom (e + 1) evs
  | Ev.lb s l :: evs => (e, s, l) :: lbRangesFrom e evs
  | _ :: evs => lbRangesFrom e evs

/-- Small-buffer served ranges, tagged with a refill epoch. -/
def sbRangesFrom (e : Nat) : List Ev → List (Nat × Nat × Nat)
  | [] => []
  | Ev.fillSb :: evs => sbRangesFrom (e + 1) evs
  | Ev.sb s l :: evs => (e, s, l) :: sbRangesFrom e evs
  | _ :: evs => sbRangesFrom e evs

/-- The per-cache invariant: counters in range, the large counter a
multiple of the block size, buffers of their allocated lengths. -/
def CacheInv (c : Cache) : Prop :=
  0 ≤ c.lbCount ∧ c.lbCount ≤ (lbByteSize : Int) ∧ c.lbCount % 8 = 0 ∧
  0 ≤ c.sbCount ∧ c.sbCount ≤ (sbByteSize : Int) ∧
  c.lb.length = lbByteSize ∧ c.sb.length = sbByteSize

/-- A predicate holding of every cache in a pool. -/
def PoolAll (P : Cache → Prop) : List Cache → Prop
  | [] => True
  | c :: t => P c ∧ PoolAll P t

/-- The world invariant: every pooled cache satisfies the cache invariant. -/
def WInv (w : World) : Prop :=
  PoolAll CacheInv w.pool

/-- Ordering of tagged ranges: within the same epoch a later range starts
at or after the end of an earlier one. -/
def RngLe (a b : Nat × Nat × Nat) : Prop :=
  a.1 = b.1 → a.2.1 + a.2.2 ≤ b.2.1

/-- Two tagged ranges from the same epoch cover disjoint index sets. -/
def RngDisj (a b : Nat × Nat × Nat) : Prop :=
  a.1 = b.1 → a.2.1 + a.2.2 ≤ b.2.1 ∨ b.2.1 + b.2.2 ≤ a.2.1

/-- The trace property carried through the reachability induction: at any
epoch offset, the served ranges of either buffer are ordered within each
epoch, every recorded epoch is at least the offset, and every range of
the earliest epoch starts at or after the current cursor of the cache the
next Read will check out. -/
def TraceOK (w : World) (evs : List Ev) : Prop :=
  ∀ e : Nat,
    ((lbRangesFrom e evs).Pairwise RngLe ∧
      ∀ x ∈ lbRangesFrom e evs,
        e ≤ x.1 ∧ (x.1 = e → (lbByteSize : Int) - (poolGet w).1.lbCount ≤ (x.2.1 : Int))) ∧
    ((sbRangesFrom e evs).Pairwise RngLe ∧
      ∀ x ∈ sbRangesFrom e evs,
        e ≤ x.1 ∧ (x.1 = e → (sbByteSize : Int) - (poolGet w).1.sbCount ≤ (x.2.1 : Int)))

/-- A concrete never-failing source for witnesses: byte i of the stream
has value i + 1 (reduced mod 256 on read). -/
def srcW : Src :=
  { stream := fun i => i + 1, pos := 0, fails := fun _ => false, calls := [] }

/-- A concrete source whose every call reports a failure. -/
def srcF : Src :=
  { stream := fun i => i + 1, pos := 0, fails := fun _ => true, calls := [] }

/-- The literal reading of claim C2: on the cached path, whenever a refill
into the secure source happens and that call reports a failure, Read
returns a non-nil error. -/
def c2Claim : Prop :=
  ∀ (n : Nat) (w : World), 0 < n → n ≤ maxBytesToFillViaCache →
    (Ev.fillSb ∈ (Read n w).evs ∨ Ev.fillLb ∈ (Read n w).evs) →
    w.src.fails w.src.calls.length = true →
    (Read n w).err = true

/-- The literal reading of claim C4: for every cached request of n bytes,
if n exceeds the available count of the 4096-byte block-rounded buffer,
the entire 4096-byte buffer is overwritten with fresh bytes from the
secure source and the output is copied from its refilled front. -/
def c4Claim : Prop :=
  ∀ (n : Nat) (w : World), WInv w → 0 < n → n ≤ maxBytesToFillViaCache →
    (n : Int) > (poolGet w).1.lbCount →
    ((Read n w).w.pool.headD newCache).lb = (srcRead lbByteSize w.src).out ∧
    (Read n w).out = ((srcRead lbByteSize w.src).out).take n ∧
    Ev.fillLb ∈ (Read n w).evs

set_option maxRecDepth 4000

theorem lbByteSize_eq : lbByteSize = 4096 := rfl

theorem sbByteSize_eq : sbByteSize = 1024 := rfl

theorem maxBytesToFillViaCache_eq : maxBytesToFillViaCache = 512 := rfl

theorem sbCutoff_eq : sbCutoff = 32 := rfl

/-- The AND-NOT bit trick computes the block-rounded request size. -/
theorem lbBytesConsumed_eq : ∀ n : Nat, n < 520 →
    lbBytesConsumed n = ((n + 7) / 8) * 8 := by decide

theorem cacheInv_newCache : CacheInv newCache := by
  refine ⟨le_refl 0, ?_, rfl, le_refl 0, ?_, ?_, ?_⟩
  · exact Int.natCast_nonneg _
  · exact Int.natCast_nonneg _
  · exact List.length_replicate _ _
  · exact List.length_replicate _ _

@[simp] theorem srcRead_out_length (k : Nat) (s : Src) :
    (srcRead k s).out.length = k := by
  simp [srcRead]

@[simp] theorem poolAll_nil (P : Cache → Prop) : PoolAll P [] := trivial

@[simp] theorem poolAll_cons (P : Cache → Prop) (c : Cache) (t : List Cache) :
    PoolAll P (c :: t) ↔ P c ∧ PoolAll P t := Iff.rfl

theorem poolGet_fst (w : World) : (poolGet w).1 = w.pool.headD newCache := by
  obtain ⟨pool, src⟩ := w
  cases pool <;> rfl

theorem poolGet_snd_pool (w : World) : (poolGet w).2.pool = w.pool.tail := by
  obtain ⟨pool, src⟩ := w
  cases pool <;> rfl

theorem poolGet_snd_src (w : World) : (poolGet w).2.src = w.src := by
  obtain ⟨pool, src⟩ := w
  cases pool <;> rfl

theorem WInv_cur {w : World} (h : WInv w) : CacheInv (poolGet w).1 := by
  rw [WInv] at h
  rw [poolGet_fst]
  cases hp : w.pool with
  | nil => exact cacheInv_newCache
  | cons c t => rw [hp] at h; exact h.1

theorem WInv_tail {w : World} (h : WInv w) : PoolAll CacheInv w.pool.tail := by
  rw [WInv] at h
  cases hp : w.pool with
  | nil => exact trivial
  | cons c t => rw [hp] at h; exact h.2

@[simp] theorem sbServe_out (n : Nat) (c2 : Cache) (s2 : Src) (ev : List Ev) :
    (sbServe n c2 s2 ev).out
      = (c2.sb.drop ((sbByteSize : Int) - c2.sbCount).toNat).take n := rfl

@[simp] theorem sbServe_evs (n : Nat) (c2 : Cache) (s2 : Src) (ev : List Ev) :
    (sbServe n c2 s2 ev).evs
      = ev ++ [Ev.sb ((sbByteSize : Int) - c2.sbCount).toNat
                 ((c2.sb.drop ((sbByteSize : Int) - c2.sbCount).toNat).take n).length] := rfl

@[simp] theorem sbServe_c (n : Nat) (c2 : Cache) (s2 : Src) (ev : List Ev) :
    (sbServe n c2 s2 ev).c = { c2 with sbCount := c2.sbCount - (n : Int) } := rfl

@[simp] theorem sbServe_s (n : Nat) (c2 : Cache) (s2 : Src) (ev : List Ev) :
    (sbServe n c2 s2 ev).s = s2 := rfl

@[simp] theorem lbServe_out (n : Nat) (c2 : Cache) (s2 : Src) (ev : List Ev) :
    (lbServe n c2 s2 ev).out
      = (c2.lb.drop ((lbByteSize : Int) - c2.lbCount).toNat).take n := rfl

@[simp] theorem lbServe_evs (n : Nat) (c2 : Cache) (s2 : Src) (ev : List Ev) :
    (lbServe n c2 s2 ev).evs
      = ev ++ [Ev.lb ((lbByteSize : Int) - c2.lbCount).toNat
                 ((c2.lb.drop ((lbByteSize : Int) - c2.lbCount).toNat).take n).length] := rfl

@[simp] theorem lbServe_c (n : Nat) (c2 : Cache) (s2 : Src) (ev : List Ev) :
    (lbServe n c2 s2 ev).c
      = { c2 with lbCount := c2.lbCount - (lbBytesConsumed n : Int) } := rfl

@[simp] theorem lbServe_s (n : Nat) (c2 : Cache) (s2 : Src) (ev : List Ev) :
    (lbServe n c2 s2 ev).s = s2 := rfl

theorem sbStep_refill {n : Nat} {c : Cache} (s : Src) (h : (n : Int) > c.sbCount) :
    sbStep n c s
      = sbServe n { c with sb := (srcRead sbByteSize s).out, sbCount := (sbByteSize : Int) }
          (srcRead sbByteSize s).s [Ev.fillSb] := by
  rw [sbStep, if_pos h]

theorem sbStep_hit {n : Nat} {c : Cache} (s : Src) (h : ¬ (n : Int) > c.sbCount) :
    sbStep n c s = sbServe n c s [] := by
  rw [sbStep, if_neg h]

theorem lbStep_refill {n : Nat} {c : Cache} (s : Src) (h : (n : Int) > c.lbCount) :
    lbStep n c s
      = lbServe n { c with lb := (srcRead lbByteSize s).out, lbCount := (lbByteSize : Int) }
          (srcRead lbByteSize s).s [Ev.fillLb] := by
  rw [lbStep, if_pos h]

theorem lbStep_hit {n : Nat} {c : Cache} (s : Src) (h : ¬ (n : Int) > c.lbCount) :
    lbStep n c s = lbServe n c s [] := by
  rw [lbStep, if_neg h]

theorem Read_zero (w : World) :
    Read 0 w = { n := 0, err := false, out := [], evs := [], w := w } := rfl

theorem Read_big {n : Nat} (w : World) (h : n > maxBytesToFillViaCache) :
    Read n w = { n := n, err := (srcRead n w.src).err, out := (srcRead n w.src).out,
                 evs := [], w := { w with src := (srcRead n w.src).s } } := by
  have h0 : ¬ n = 0 := by
    rw [maxBytesToFillViaCache_eq] at h; omega
  rw [Read, if_neg h0, if_pos h]

theorem Read_sb {n : Nat} (w : World) (h0 : ¬ n = 0) (h1 : ¬ n > maxBytesToFillViaCache)
    (h2 : n < sbCutoff) :
    Read n w = { n := n, err := false,
                 out := (sbStep n (poolGet w).1 w.src).out,
                 evs := (sbStep n (poolGet w).1 w.src).evs,
                 w := poolPut (sbStep n (poolGet w).1 w.src).c
                        { (poolGet w).2 with src := (sbStep n (poolGet w).1 w.src).s } } := by
  rw [Read, if_neg h0, if_neg h1]
  simp only [if_pos h2, poolGet_snd_src]

theorem Read_lb {n : Nat} (w : World) (h0 : ¬ n = 0) (h1 : ¬ n > maxBytesToFillViaCache)
    (h2 : ¬ n < sbCutoff) :
    Read n w = { n := n, err := false,
                 out := (lbStep n (poolGet w).1 w.src).out,
                 evs := (lbStep n (poolGet w).1 w.src).evs,
                 w := poolPut (lbStep n (poolGet w).1 w.src).c
                        { (poolGet w).2 with src := (lbStep n (poolGet w).1 w.src).s } } := by
  rw [Read, if_neg h0, if_neg h1]
  simp only [if_neg h2, poolGet_snd_src]

/-- Everything the reachability induction needs about one small-buffer
step: the invariant is preserved, the large buffer is untouched, and the
produced events are either a single serve (no refill) whose range starts
at the old cursor, or a refill followed by a serve; in both cases the
served range ends at or before the new cursor. -/
theorem take_len_le (n : Nat) (l : List Nat) : ((l.take n).length : Int) ≤ (n : Int) := by
  have := List.length_take_le n l
  omega

theorem sbStep_facts (n : Nat) (c : Cache) (s : Src) (hn : 0 < n) (h2 : n < sbCutoff)
    (hc : CacheInv c) :
    CacheInv (sbStep n c s).c ∧
    (sbStep n c s).c.lb = c.lb ∧
    (sbStep n c s).c.lbCount = c.lbCount ∧
    ∃ start len : Nat,
      ((sbStep n c s).evs = [Ev.sb start len] ∧
          (sbByteSize : Int) - c.sbCount ≤ (start : Int) ∧
          (sbStep n c s).c.sbCount ≤ c.sbCount
        ∨ (sbStep n c s).evs = [Ev.fillSb, Ev.sb start len]) ∧
      (start : Int) + len ≤ (sbByteSize : Int) - (sbStep n c s).c.sbCount := by
  obtain ⟨hl0, hl1, hl2, hs0, hs1, hL1, hL2⟩ := hc
  rw [sbCutoff_eq] at h2
  have eSB : sbByteSize = 1024 := rfl
  by_cases hrf : (n : Int) > c.sbCount
  · rw [sbStep_refill s hrf]
    refine ⟨?_, by simp only [sbServe_c], by simp only [sbServe_c], ?_⟩
    · simp only [sbServe_c, CacheInv, srcRead_out_length]
      refine ⟨hl0, hl1, hl2, by omega, by omega, hL1, trivial⟩
    · simp only [sbServe_c, sbServe_evs, sbServe_out, List.cons_append, List.nil_append]
      refine ⟨_, _, Or.inr rfl, ?_⟩
      refine le_trans (add_le_add_left (take_len_le _ _) _) ?_
      omega
  · rw [sbStep_hit s hrf]
    refine ⟨?_, by simp only [sbServe_c], by simp only [sbServe_c], ?_⟩
    · simp only [sbServe_c, CacheInv]
      refine ⟨hl0, hl1, hl2, by omega, by omega, hL1, hL2⟩
    · simp only [sbServe_c, sbServe_evs, sbServe_out, List.nil_append]
      refine ⟨_, _, Or.inl ⟨rfl, by omega, by omega⟩, ?_⟩
      refine le_trans (add_le_add_left (take_len_le _ _) _) ?_
      omega

/-- Everything the reachability induction needs about one large-buffer
step; consumption is block-rounded, so the key extra facts are that the
rounded amount is at least the request and still at most the available
count. -/
theorem lbStep_facts (n : Nat) (c : Cache) (s : Src) (hn : sbCutoff ≤ n)
    (h2 : n ≤ maxBytesToFillViaCache) (hc : CacheInv c) :
    CacheInv (lbStep n c s).c ∧
    (lbStep n c s).c.sb = c.sb ∧
    (lbStep n c s).c.sbCount = c.sbCount ∧
    ∃ start len : Nat,
      ((lbStep n c s).evs = [Ev.lb start len] ∧
          (lbByteSize : Int) - c.lbCount ≤ (start : Int) ∧
          (lbStep n c s).c.lbCount ≤ c.lbCount
        ∨ (lbStep n c s).evs = [Ev.fillLb, Ev.lb start len]) ∧
      (start : Int) + len ≤ (lbByteSize : Int) - (lbStep n c s).c.lbCount := by
  obtain ⟨hl0, hl1, hl2, hs0, hs1, hL1, hL2⟩ := hc
  rw [sbCutoff_eq] at hn
  rw [maxBytesToFillViaCache_eq] at h2
  have eLB : lbByteSize = 4096 := rfl
  have hcons := lbBytesConsumed_eq n (by omega)
  by_cases hrf : (n : Int) > c.lbCount
  · rw [lbStep_refill s hrf]
    refine ⟨?_, by simp only [lbServe_c], by simp only [lbServe_c], ?_⟩
    · simp only [lbServe_c, CacheInv, srcRead_out_length]
      refine ⟨by omega, by omega, by omega, hs0, hs1, trivial, hL2⟩
    · simp only [lbServe_c, lbServe_evs, lbServe_out, List.cons_append, List.nil_append]
      refine ⟨_, _, Or.inr rfl, ?_⟩
      refine le_trans (add_le_add_left (take_len_le _ _) _) ?_
      omega
  · rw [lbStep_hit s hrf]
    refine ⟨?_, by simp only [lbServe_c], by simp only [lbServe_c], ?_⟩
    · simp only [lbServe_c, CacheInv]
      refine ⟨by omega, by omega, by omega, hs0, hs1, hL1, hL2⟩
    · simp only [lbServe_c, lbServe_evs, lbServe_out, List.nil_append]
      refine ⟨_, _, Or.inl ⟨rfl, by omega, by omega⟩, ?_⟩
      refine le_trans (add_le_add_left (take_len_le _ _) _) ?_
      omega

@[simp] theorem lbRangesFrom_nil (e : Nat) : lbRangesFrom e [] = [] := rfl

@[simp] theorem lbRangesFrom_fillLb (e : Nat) (evs : List Ev) :
    lbRangesFrom e (Ev.fillLb :: evs) = lbRangesFrom (e + 1) evs := rfl

@[simp] theorem lbRangesFrom_lb (e a b : Nat) (evs : List Ev) :
    lbRangesFrom e (Ev.lb a b :: evs) = (e, a, b) :: lbRangesFrom e evs := rfl

@[simp] theorem lbRangesFrom_fillSb (e : Nat) (evs : List Ev) :
    lbRangesFrom e (Ev.fillSb :: evs) = lbRangesFrom e evs := rfl

@[simp] theorem lbRangesFrom_sb (e a b : Nat) (evs : List Ev) :
    lbRangesFrom e (Ev.sb a b :: evs) = lbRangesFrom e evs := rfl

@[simp] theorem sbRangesFrom_nil (e : Nat) : sbRangesFrom e [] = [] := rfl

@[simp] theorem sbRangesFrom_fillSb (e : Nat) (evs : List Ev) :
    sbRangesFrom e (Ev.fillSb :: evs) = sbRangesFrom (e + 1) evs := rfl

@[simp] theorem sbRangesFrom_sb (e a b : Nat) (evs : List Ev) :
    sbRangesFrom e (Ev.sb a b :: evs) = (e, a, b) :: sbRangesFrom e evs := rfl

@[simp] theorem sbRangesFrom_fillLb (e : Nat) (evs : List Ev) :
    sbRangesFrom e (Ev.fillLb :: evs) = sbRangesFrom e evs := rfl

@[simp] theorem sbRangesFrom_lb (e a b : Nat) (evs : List Ev) :
    sbRangesFrom e (Ev.lb a b :: evs) = sbRangesFrom e evs := rfl

@[simp] theorem run_nil (w : World) : run [] w = w := rfl

@[simp] theorem runEvs_nil (w : World) : runEvs [] w = [] := rfl

theorem run_cons (n : Nat) (ns : List Nat) (w : World) :
    run (n :: ns) w = run ns (Read n w).w := rfl

theorem runEvs_cons (n : Nat) (ns : List Nat) (w : World) :
    runEvs (n :: ns) w = (Read n w).evs ++ runEvs ns (Read n w).w := rfl

/-- The reachability induction: from any world whose pooled caches satisfy
the cache invariant, any sequence of Read calls preserves the invariant
and produces a well-ordered event trace. -/
theorem run_master (ns : List Nat) : ∀ (w : World), WInv w →
    WInv (run ns w) ∧ TraceOK w (runEvs ns w) := by
  induction ns with
  | nil =>
    intro w hw
    refine ⟨hw, ?_⟩
    intro e
    exact ⟨⟨List.Pairwise.nil, by simp⟩, ⟨List.Pairwise.nil, by simp⟩⟩
  | cons n ns ih =>
    intro w hw
    rcases Nat.eq_zero_or_pos n with h0 | h0
    · subst h0
      exact ih w hw
    · by_cases h1 : n > maxBytesToFillViaCache
      · -- bypass path: no events, pool untouched
        have hR := Read_big w h1
        have hw2 : WInv (Read n w).w := by rw [hR]; exact hw
        obtain ⟨hWI, hTr⟩ := ih (Read n w).w hw2
        refine ⟨by rw [run_cons]; exact hWI, ?_⟩
        intro e
        have hcur : (poolGet (Read n w).w).1 = (poolGet w).1 := by
          rw [hR, poolGet_fst, poolGet_fst]
        have hev : (Read n w).evs = [] := by rw [hR]
        rw [runEvs_cons, hev, List.nil_append]
        have := hTr e
        rw [hcur] at this
        exact this
      · have h0' : ¬ n = 0 := by omega
        by_cases h2 : n < sbCutoff
        · -- small-buffer path
          have hR := Read_sb w h0' h1 h2
          obtain ⟨hInv, hLb, hLbC, start, len, hevOr, hbound⟩ :=
            sbStep_facts n (poolGet w).1 w.src h0 h2 (WInv_cur hw)
          have hw2 : WInv (Read n w).w := by
            rw [hR]
            refine ⟨hInv, ?_⟩
            show PoolAll CacheInv (poolGet w).2.pool
            rw [poolGet_snd_pool]
            exact WInv_tail hw
          obtain ⟨hWI, hTr⟩ := ih (Read n w).w hw2
          refine ⟨by rw [run_cons]; exact hWI, ?_⟩
          have hcur : (poolGet (Read n w).w).1 = (sbStep n (poolGet w).1 w.src).c := by
            rw [hR, poolGet_fst]
            simp [poolPut]
          have hevR : (Read n w).evs = (sbStep n (poolGet w).1 w.src).evs := by rw [hR]
          intro e
          rw [runEvs_cons, hevR]
          rcases hevOr with ⟨hev, hstart, hdec⟩ | hev
          · -- serve without refill
            rw [hev, List.cons_append, List.nil_append]
            obtain ⟨⟨hLP, hLM⟩, hSP, hSM⟩ := hTr e
            rw [hcur] at hLM hSM
            rw [hLbC] at hLM
            refine ⟨⟨by simpa using hLP, by simpa using hLM⟩, ?_, ?_⟩
            · simp only [sbRangesFrom_sb]
              refine List.pairwise_cons.mpr ⟨?_, hSP⟩
              intro x hx heq
              have hx2 := (hSM x hx).2 heq.symm
              show start + len ≤ x.2.1
              omega
            · simp only [sbRangesFrom_sb]
              refine List.forall_mem_cons.mpr ⟨⟨le_refl e, fun _ => ?_⟩, fun x hx => ?_⟩
              · exact hstart
              · refine ⟨(hSM x hx).1, fun hxe => ?_⟩
                have hx2 := (hSM x hx).2 hxe
                omega
          · -- refill then serve
            rw [hev, List.cons_append, List.cons_append, List.nil_append]
            obtain ⟨⟨hLP, hLM⟩, _, _⟩ := hTr e
            obtain ⟨_, hSP1, hSM1⟩ := hTr (e + 1)
            rw [hcur] at hLM hSM1
            rw [hLbC] at hLM
            refine ⟨⟨by simpa using hLP, by simpa using hLM⟩, ?_, ?_⟩
            · simp only [sbRangesFrom_fillSb, sbRangesFrom_sb]
              refine List.pairwise_cons.mpr ⟨?_, hSP1⟩
              intro x hx heq
              have hx2 := (hSM1 x hx).2 heq.symm
              show start + len ≤ x.2.1
              omega
            · simp only [sbRangesFrom_fillSb, sbRangesFrom_sb]
              refine List.forall_mem_cons.mpr
                ⟨⟨by omega, fun hh => by omega⟩, fun x hx => ?_⟩
              have hx1 := (hSM1 x hx).1
              exact ⟨by omega, fun hxe => by omega⟩
        · -- large-buffer path
          have hR := Read_lb w h0' h1 h2
          obtain ⟨hInv, hSb, hSbC, start, len, hevOr, hbound⟩ :=
            lbStep_facts n (poolGet w).1 w.src (by omega) (by omega) (WInv_cur hw)
          have hw2 : WInv (Read n w).w := by
            rw [hR]
            refine ⟨hInv, ?_⟩
            show PoolAll CacheInv (poolGet w).2.pool
            rw [poolGet_snd_pool]
            exact WInv_tail hw
          obtain ⟨hWI, hTr⟩ := ih (Read n w).w hw2
          refine ⟨by rw [run_cons]; exact hWI, ?_⟩
          have hcur : (poolGet (Read n w).w).1 = (lbStep n (poolGet w).1 w.src).c := by
            rw [hR, poolGet_fst]
            simp [poolPut]
          have hevR : (Read n w).evs = (lbStep n (poolGet w).1 w.src).evs := by rw [hR]
          intro e
          rw [runEvs_cons, hevR]
          rcases hevOr with ⟨hev, hstart, hdec⟩ | hev
          · rw [hev, List.cons_append, List.nil_append]
            obtain ⟨⟨hLP, hLM⟩, hSP, hSM⟩ := hTr e
            rw [hcur] at hLM hSM
            rw [hSbC] at hSM
            refine ⟨⟨?_, ?_⟩, by simpa using hSP, by simpa using hSM⟩
            · simp only [lbRangesFrom_lb]
              refine List.pairwise_cons.mpr ⟨?_, hLP⟩
              intro x hx heq
              have hx2 := (hLM x hx).2 heq.symm
              show start + len ≤ x.2.1
              omega
            · simp only [lbRangesFrom_lb]
              refine List.forall_mem_cons.mpr ⟨⟨le_refl e, fun _ => ?_⟩, fun x hx => ?_⟩
              · exact hstart
              · refine ⟨(hLM x hx).1, fun hxe => ?_⟩
                have hx2 := (hLM x hx).2 hxe
                omega
          · rw [hev, List.cons_append, List.cons_append, List.nil_append]
            obtain ⟨_, hSP, hSM⟩ := hTr e
            obtain ⟨⟨hLP1, hLM1⟩, _, _⟩ := hTr (e + 1)
            rw [hcur] at hSM hLM1
            rw [hSbC] at hSM
            refine ⟨⟨?_, ?_⟩, by simpa using hSP, by simpa using hSM⟩
            · simp only [lbRangesFrom_fillLb, lbRangesFrom_lb]
              refine List.pairwise_cons.mpr ⟨?_, hLP1⟩
              intro x hx heq
              have hx2 := (hLM1 x hx).2 heq.symm
              show start + len ≤ x.2.1
              omega
            · simp only [lbRangesFrom_fillLb, lbRangesFrom_lb]
              refine List.forall_mem_cons.mpr
                ⟨⟨by omega, fun hh => by omega⟩, fun x hx => ?_⟩
              have hx1 := (hLM1 x hx).1
              exact ⟨by omega, fun hxe => by omega⟩

/-- Weakening a pool-wide predicate. -/
theorem poolAll_mono {P Q : Cache → Prop} (h : ∀ c, P c → Q c) :
    ∀ l : List Cache, PoolAll P l → PoolAll Q l
  | [], _ => trivial
  | c :: t, hp => ⟨h c hp.1, poolAll_mono h t hp.2⟩

/-- C7: Read with a zero-length buffer returns 0 bytes and a nil error and
leaves the whole state (pool, caches and source, including the log of
calls into the secure source) unchanged. -/
theorem c7_zero_read_noop (w : World) :
    (Read 0 w).n = 0 ∧ (Read 0 w).err = false ∧ (Read 0 w).out = [] ∧
    (Read 0 w).evs = [] ∧ (Read 0 w).w = w :=
  ⟨rfl, rfl, rfl, rfl, rfl⟩

/-- C10: the read operation of the reader object is the same state
transformer as Read: identical results and identical state transitions on
every input. -/
theorem c10_reader_read_equiv_read (bLen : Nat) (w : World) :
    reader_Read bLen w = Read bLen w := rfl

/-- C6: a request larger than the 512-byte threshold is served by exactly
one call into the secure source with the request buffer itself; the pool
is untouched, no cache event happens, the returned count is the request
size and the returned error is exactly the error of that single call. -/
theorem c6_bypass_single_direct_call {n : Nat} (w : World)
    (h : n > maxBytesToFillViaCache) :
    (Read n w).n = n ∧
    (Read n w).err = w.src.fails w.src.calls.length ∧
    (Read n w).out = (srcRead n w.src).out ∧
    (Read n w).evs = [] ∧
    (Read n w).w.pool = w.pool ∧
    (Read n w).w.src.calls = w.src.calls ++ [n] ∧
    (Read n w).w.src.pos = w.src.pos + n := by
  rw [Read_big w h]
  exact ⟨rfl, rfl, rfl, rfl, rfl, rfl, rfl⟩

theorem c6_bypass_single_direct_call_witness :
    513 > maxBytesToFillViaCache ∧
    ((Read 513 (initW srcW)).n = 513 ∧
     (Read 513 (initW srcW)).err = (initW srcW).src.fails (initW srcW).src.calls.length ∧
     (Read 513 (initW srcW)).out = (srcRead 513 (initW srcW).src).out ∧
     (Read 513 (initW srcW)).evs = [] ∧
     (Read 513 (initW srcW)).w.pool = (initW srcW).pool ∧
     (Read 513 (initW srcW)).w.src.calls = (initW srcW).src.calls ++ [513] ∧
     (Read 513 (initW srcW)).w.src.pos = (initW srcW).src.pos + 513) :=
  ⟨by decide, c6_bypass_single_direct_call (initW srcW) (by decide)⟩

/-- C2 counterexample: at the concrete cached request of 32 bytes against
a fresh world whose secure source reports a failure on every call, a
refill into the source happens and that call reports a failure, yet Read
returns a nil error; hence the literal claim is false. -/
theorem c2_counterexample_error_swallowed :
    (Ev.fillLb ∈ (Read 32 (initW srcF)).evs ∧
     (initW srcF).src.fails (initW srcF).src.calls.length = true ∧
     (Read 32 (initW srcF)).err = false) ∧
    ¬ c2Claim := by
  refine ⟨⟨by decide, rfl, by decide⟩, fun h => ?_⟩
  have := h 32 (initW srcF) (by decide) (by decide) (Or.inr (by decide)) rfl
  exact absurd this (by decide)

/-- C2 amended: on the cached path Read always returns a nil error, even
when the refill call into the secure source reports a failure; the refill
error is discarded by the code (crypto/rand.Read is documented never to
fail since Go 1.24). -/
theorem c2_amended_cached_error_always_nil (n : Nat) (w : World) (h0 : 0 < n)
    (h1 : n ≤ maxBytesToFillViaCache) : (Read n w).err = false := by
  have h0' : ¬ n = 0 := by omega
  have h1' : ¬ n > maxBytesToFillViaCache := by omega
  by_cases h2 : n < sbCutoff
  · rw [Read_sb w h0' h1' h2]
  · rw [Read_lb w h0' h1' h2]

theorem c2_amended_cached_error_always_nil_witness :
    0 < 32 ∧ 32 ≤ maxBytesToFillViaCache ∧ (Read 32 (initW srcF)).err = false :=
  ⟨by decide, by decide,
    c2_amended_cached_error_always_nil 32 (initW srcF) (by decide) (by decide)⟩

/-- C5: on the large-buffer path the consumed amount, computed by the
AND-NOT bit trick, is the request rounded up to the next multiple of the
block size; it is at least the request, at most the count available at
the moment of the subtraction, and the count never becomes negative. -/
theorem c5_block_rounded_consumption (n : Nat) (c : Cache) (s : Src)
    (h2 : sbCutoff ≤ n) (h1 : n ≤ maxBytesToFillViaCache)
    (_hc0 : 0 ≤ c.lbCount) (hc8 : c.lbCount % 8 = 0) :
    lbBytesConsumed n = ((n + (lbBlockByteSize - 1)) / lbBlockByteSize) * lbBlockByteSize ∧
    n ≤ lbBytesConsumed n ∧
    (lbBytesConsumed n : Int) ≤
      (if (n : Int) > c.lbCount then (lbByteSize : Int) else c.lbCount) ∧
    (lbStep n c s).c.lbCount =
      (if (n : Int) > c.lbCount then (lbByteSize : Int) else c.lbCount)
        - (lbBytesConsumed n : Int) ∧
    0 ≤ (lbStep n c s).c.lbCount := by
  rw [sbCutoff_eq] at h2
  rw [maxBytesToFillViaCache_eq] at h1
  have hcons := lbBytesConsumed_eq n (by omega)
  have eLB : (lbByteSize : Int) = 4096 := rfl
  refine ⟨hcons, by omega, ?_, ?_, ?_⟩
  · by_cases hrf : (n : Int) > c.lbCount
    · rw [if_pos hrf]; omega
    · rw [if_neg hrf]; omega
  · by_cases hrf : (n : Int) > c.lbCount
    · rw [if_pos hrf, lbStep_refill s hrf]
      simp only [lbServe_c]
    · rw [if_neg hrf, lbStep_hit s hrf]
      simp only [lbServe_c]
  · by_cases hrf : (n : Int) > c.lbCount
    · rw [lbStep_refill s hrf]
      simp only [lbServe_c]
      omega
    · rw [lbStep_hit s hrf]
      simp only [lbServe_c]
      omega

theorem c5_block_rounded_consumption_witness :
    sbCutoff ≤ 33 ∧ 33 ≤ maxBytesToFillViaCache ∧ 0 ≤ newCache.lbCount ∧
    newCache.lbCount % 8 = 0 ∧
    (lbBytesConsumed 33 =
        ((33 + (lbBlockByteSize - 1)) / lbBlockByteSize) * lbBlockByteSize ∧
      33 ≤ lbBytesConsumed 33 ∧
      (lbBytesConsumed 33 : Int) ≤
        (if (33 : Int) > newCache.lbCount then (lbByteSize : Int) else newCache.lbCount) ∧
      (lbStep 33 newCache srcW).c.lbCount =
        (if (33 : Int) > newCache.lbCount then (lbByteSize : Int) else newCache.lbCount)
          - (lbBytesConsumed 33 : Int) ∧
      0 ≤ (lbStep 33 newCache srcW).c.lbCount) :=
  ⟨by decide, by decide, by decide, by decide,
    c5_block_rounded_consumption 33 newCache srcW (by decide) (by decide)
      (by decide) (by decide)⟩

/-- C1: over any sequence of Read calls from the initial state (all served
by the single cache the LIFO pool hands out), the ranges copied out of
each buffer, tagged with their refill epoch, are pairwise disjoint within
an epoch: no buffer position is handed out twice between two refills. -/
theorem c1_served_ranges_disjoint_between_refills (s : Src) (ns : List Nat) :
    ((lbRangesFrom 0 (runEvs ns (initW s))).Pairwise RngDisj) ∧
    ((sbRangesFrom 0 (runEvs ns (initW s))).Pairwise RngDisj) := by
  obtain ⟨-, hTr⟩ := run_master ns (initW s) trivial
  obtain ⟨⟨hLP, -⟩, hSP, -⟩ := hTr 0
  exact ⟨hLP.imp fun h heq => Or.inl (h heq),
         hSP.imp fun h heq => Or.inl (h heq)⟩

theorem c1_served_ranges_disjoint_between_refills_witness :
    ((lbRangesFrom 0 (runEvs [40, 40, 5, 31, 600, 512] (initW srcW))).Pairwise RngDisj) ∧
    ((sbRangesFrom 0 (runEvs [40, 40, 5, 31, 600, 512] (initW srcW))).Pairwise RngDisj) :=
  c1_served_ranges_disjoint_between_refills srcW [40, 40, 5, 31, 600, 512]

/-- C3: after any sequence of completed Read operations from the initial
state, every cache at rest in the pool has a large-buffer byte count
between 0 and 4096 that is a multiple of the block size 8. -/
theorem c3_lb_counter_invariant (s : Src) (ns : List Nat) :
    PoolAll (fun c => 0 ≤ c.lbCount ∧ c.lbCount ≤ 4096 ∧ c.lbCount % 8 = 0)
      (run ns (initW s)).pool := by
  have h := (run_master ns (initW s) trivial).1
  refine poolAll_mono (fun c hc => ?_) _ h
  have eLB : (lbByteSize : Int) = 4096 := rfl
  obtain ⟨h1, h2, h3, -, -, -, -⟩ := hc
  omega

theorem c3_lb_counter_invariant_witness :
    PoolAll (fun c => 0 ≤ c.lbCount ∧ c.lbCount ≤ 4096 ∧ c.lbCount % 8 = 0)
      (run [40, 5, 512] (initW srcW)).pool :=
  c3_lb_counter_invariant srcW [40, 5, 512]

/-- C4 counterexample: the 5-byte cached request against a fresh world has
n greater than the available count of the large buffer, yet no large
refill happens (the request is served from the separate small buffer and
the large counter stays 0); hence the literal claim is false. -/
theorem c4_counterexample_small_request :
    ((5 : Int) > (poolGet (initW srcW)).1.lbCount ∧
     Ev.fillLb ∉ (Read 5 (initW srcW)).evs ∧
     ((Read 5 (initW srcW)).w.pool.headD newCache).lbCount = 0) ∧
    ¬ c4Claim := by
  refine ⟨⟨by decide, by decide, by decide⟩, fun h => ?_⟩
  obtain ⟨-, -, hmem⟩ := h 5 (initW srcW) trivial (by decide) (by decide) (by decide)
  exact absurd hmem (by decide)

/-- C4 amended: for every cached request on the large-buffer path
(32 ≤ n ≤ 512), if n exceeds the available count then the entire
4096-byte buffer is overwritten with 4096 fresh bytes from the secure
source, the count becomes 4096 minus the block-rounded consumption, and
the n output bytes are the first n bytes of the refilled buffer; requests
below 32 bytes are served from the separate small buffer instead. -/
theorem c4_amended_lb_refill_is_full (n : Nat) (w : World)
    (h2 : sbCutoff ≤ n) (h1 : n ≤ maxBytesToFillViaCache)
    (hrf : (n : Int) > (poolGet w).1.lbCount) :
    ((Read n w).w.pool.headD newCache).lb = (srcRead lbByteSize w.src).out ∧
    ((Read n w).w.pool.headD newCache).lbCount
      = (lbByteSize : Int) - (lbBytesConsumed n : Int) ∧
    (Read n w).out = ((srcRead lbByteSize w.src).out).take n ∧
    Ev.fillLb ∈ (Read n w).evs := by
  have e32 : sbCutoff = 32 := rfl
  have e512 : maxBytesToFillViaCache = 512 := rfl
  have h0' : ¬ n = 0 := by omega
  have h1' : ¬ n > maxBytesToFillViaCache := by omega
  have h2' : ¬ n < sbCutoff := by omega
  rw [Read_lb w h0' h1' h2', lbStep_refill w.src hrf]
  refine ⟨?_, ?_, ?_, ?_⟩
  · simp only [poolPut, List.headD_cons, lbServe_c]
  · simp only [poolPut, List.headD_cons, lbServe_c]
  · simp only [lbServe_out, sub_self, Int.toNat_zero, List.drop_zero]
  · simp [lbServe_evs]

theorem c4_amended_lb_refill_is_full_witness :
    sbCutoff ≤ 40 ∧ 40 ≤ maxBytesToFillViaCache ∧
    (40 : Int) > (poolGet (initW srcW)).1.lbCount ∧
    (((Read 40 (initW srcW)).w.pool.headD newCache).lb
        = (srcRead lbByteSize (initW srcW).src).out ∧
      ((Read 40 (initW srcW)).w.pool.headD newCache).lbCount
        = (lbByteSize : Int) - (lbBytesConsumed 40 : Int) ∧
      (Read 40 (initW srcW)).out = ((srcRead lbByteSize (initW srcW).src).out).take 40 ∧
      Ev.fillLb ∈ (Read 40 (initW srcW)).evs) :=
  ⟨by decide, by decide, by decide,
    c4_amended_lb_refill_is_full 40 (initW srcW) (by decide) (by decide) (by decide)⟩

/-- C8: a request of n bytes with 0 < n < 32 is served from the 1024-byte
small buffer at byte granularity: the small count drops by exactly n from
its post-refill-check value (no block rounding), it stays within
[0, 1024], the large buffer and its count are untouched, exactly n bytes
are written out, and no large-buffer event occurs. -/
theorem c8_small_requests_byte_granular (n : Nat) (w : World)
    (h0 : 0 < n) (h2 : n < sbCutoff) (hw : WInv w) :
    ((Read n w).w.pool.headD newCache).lb = (poolGet w).1.lb ∧
    ((Read n w).w.pool.headD newCache).lbCount = (poolGet w).1.lbCount ∧
    ((Read n w).w.pool.headD newCache).sbCount
      = (if (n : Int) > (poolGet w).1.sbCount then (sbByteSize : Int)
         else (poolGet w).1.sbCount) - (n : Int) ∧
    0 ≤ ((Read n w).w.pool.headD newCache).sbCount ∧
    ((Read n w).w.pool.headD newCache).sbCount ≤ (sbByteSize : Int) ∧
    (Read n w).n = n ∧ (Read n w).err = false ∧
    (Read n w).out.length = n ∧
    (∀ a b : Nat, Ev.lb a b ∉ (Read n w).evs) ∧
    Ev.fillLb ∉ (Read n w).evs := by
  have e32 : sbCutoff = 32 := rfl
  have e512 : maxBytesToFillViaCache = 512 := rfl
  have eSB : (sbByteSize : Int) = 1024 := rfl
  have h0' : ¬ n = 0 := by omega
  have h1' : ¬ n > maxBytesToFillViaCache := by omega
  obtain ⟨-, -, -, hs0, hs1, -, hL2⟩ := WInv_cur hw
  rw [Read_sb w h0' h1' h2]
  by_cases hrf : (n : Int) > (poolGet w).1.sbCount
  · rw [sbStep_refill w.src hrf, if_pos hrf]
    refine ⟨?_, ?_, ?_, ?_, ?_, rfl, rfl, ?_, ?_, ?_⟩
    · simp only [poolPut, List.headD_cons, sbServe_c]
    · simp only [poolPut, List.headD_cons, sbServe_c]
    · simp only [poolPut, List.headD_cons, sbServe_c]
    · simp only [poolPut, List.headD_cons, sbServe_c]
      omega
    · simp only [poolPut, List.headD_cons, sbServe_c]
      omega
    · simp only [sbServe_out, List.length_take, List.length_drop, srcRead_out_length]
      omega
    · intro a b
      simp [sbServe_evs]
    · simp [sbServe_evs]
  · rw [sbStep_hit w.src hrf, if_neg hrf]
    refine ⟨?_, ?_, ?_, ?_, ?_, rfl, rfl, ?_, ?_, ?_⟩
    · simp only [poolPut, List.headD_cons, sbServe_c]
    · simp only [poolPut, List.headD_cons, sbServe_c]
    · simp only [poolPut, List.headD_cons, sbServe_c]
    · simp only [poolPut, List.headD_cons, sbServe_c]
      omega
    · simp only [poolPut, List.headD_cons, sbServe_c]
      omega
    · simp only [sbServe_out, List.length_take, List.length_drop, hL2]
      omega
    · intro a b
      simp [sbServe_evs]
    · simp [sbServe_evs]

theorem c8_small_requests_byte_granular_witness :
    0 < 5 ∧ 5 < sbCutoff ∧
    (((Read 5 (initW srcW)).w.pool.headD newCache).lb = (poolGet (initW srcW)).1.lb ∧
      ((Read 5 (initW srcW)).w.pool.headD newCache).lbCount
        = (poolGet (initW srcW)).1.lbCount ∧
      ((Read 5 (initW srcW)).w.pool.headD newCache).sbCount
        = (if (5 : Int) > (poolGet (initW srcW)).1.sbCount then (sbByteSize : Int)
           else (poolGet (initW srcW)).1.sbCount) - (5 : Int) ∧
      0 ≤ ((Read 5 (initW srcW)).w.pool.headD newCache).sbCount ∧
      ((Read 5 (initW srcW)).w.pool.headD newCache).sbCount ≤ (sbByteSize : Int) ∧
      (Read 5 (initW srcW)).n = 5 ∧ (Read 5 (initW srcW)).err = false ∧
      (Read 5 (initW srcW)).out.length = 5 ∧
      (∀ a b : Nat, Ev.lb a b ∉ (Read 5 (initW srcW)).evs) ∧
      Ev.fillLb ∉ (Read 5 (initW srcW)).evs) :=
  ⟨by decide, by decide,
    c8_small_requests_byte_granular 5 (initW srcW) (by decide) (by decide) trivial⟩

/-- The bytes Read writes for the 26-byte request of Text never exceed 26. -/
theorem text_read_out_len_le (w : World) :
    (reader_Read textLength w).out.length ≤ 26 := by
  show (Read 26 w).out.length ≤ 26
  rw [Read_sb w (by decide) (by decide) (by decide)]
  by_cases hrf : ((26 : Nat) : Int) > (poolGet w).1.sbCount
  · rw [sbStep_refill w.src hrf]
    simp only [sbServe_out]
    exact List.length_take_le _ _
  · rw [sbStep_hit w.src hrf]
    simp only [sbServe_out]
    exact List.length_take_le _ _

/-- Every entry of the 256-entry table is a character of the alphabet. -/
theorem base32_256_getD_mem (b : Nat) : base32_256.getD b 'A' ∈ base32 := by
  by_cases hb : b < base32_256.length
  · rw [List.getD_eq_getElem _ _ hb]
    have hmem := List.getElem_mem hb
    simp only [base32_256, List.mem_append] at hmem
    simpa using hmem
  · rw [List.getD_eq_default _ _ (by omega)]
    decide

/-- C9: Text always returns exactly 26 characters, each drawn from the
32-symbol RFC 4648 base32 alphabet; the 256-entry table it maps raw bytes
through is the alphabet repeated 8 times, i.e. entry b is alphabet entry
b mod 32. -/
theorem c9_text_shape (w : World) :
    (Text w).1.length = 26 ∧
    (∀ ch ∈ (Text w).1, ch ∈ base32) ∧
    base32.length = 32 ∧
    base32_256.length = 256 ∧
    (∀ b : Fin 256, base32_256.getD (b : Nat) 'A' = base32.getD ((b : Nat) % 32) 'A') := by
  have hlen := text_read_out_len_le w
  refine ⟨?_, ?_, by decide, by decide, by decide⟩
  · simp only [Text, List.length_map, List.length_append, List.length_drop,
      List.length_replicate]
    show (reader_Read textLength w).out.length
      + (textLength - (reader_Read textLength w).out.length) = 26
    have e26 : textLength = 26 := rfl
    omega
  · intro ch hch
    simp only [Text, List.mem_map] at hch
    obtain ⟨b, -, rfl⟩ := hch
    exact base32_256_getD_mem b

theorem c9_text_shape_witness :
    (Text (initW srcW)).1.length = 26 ∧
    (∀ ch ∈ (Text (initW srcW)).1, ch ∈ base32) ∧
    base32.length = 32 ∧
    base32_256.length = 256 ∧
    (∀ b : Fin 256, base32_256.getD (b : Nat) 'A' = base32.getD ((b : Nat) % 32) 'A') :=
  c9_text_shape (initW srcW)

end Fcrand
